import Mathlib

/-!
Shallow embedding of the evolutionary-optimization core of brain-farm-rs.

Rust `f64` values are modelled by `FVal`: exact rationals extended with the
IEEE special values NaN and the two signed infinities.  Arithmetic on finite
values is exact (no rounding, no overflow, no negative zero); the special-value
propagation rules follow IEEE 754 as `f64` implements them.  Every randomness
source (`thread_rng`) is threaded explicitly: a uniform draw from `[lo, hi]`
is modelled by `genRange lo hi u` for a unit draw `u` in `[0, 1]`, shuffles by
an explicit index permutation, and raw integer draws by `Nat` seeds.
-/

namespace BrainFarm

/-- Model of an `f64` value: a finite rational, an infinity (`true` is the
positive one), or NaN. -/
inductive FVal where
  | fin : ℚ → FVal
  | inf : Bool → FVal
  | nan : FVal
deriving DecidableEq, Repr

namespace FVal

/-- `f64::is_nan`. -/
def isNan : FVal → Bool
  | .nan => true
  | _ => false

/-- `f64::is_infinite`. -/
def isInfinite : FVal → Bool
  | .inf _ => true
  | _ => false

/-- `f64::is_finite`. -/
def isFinite : FVal → Bool
  | .fin _ => true
  | _ => false

/-- IEEE negation. -/
def neg : FVal → FVal
  | .fin q => .fin (-q)
  | .inf s => .inf (!s)
  | .nan => .nan

/-- IEEE addition (exact on finite values). -/
def add : FVal → FVal → FVal
  | .nan, _ => .nan
  | .fin _, .nan => .nan
  | .inf _, .nan => .nan
  | .inf s, .inf t => if s = t then .inf s else .nan
  | .inf s, .fin _ => .inf s
  | .fin _, .inf t => .inf t
  | .fin a, .fin b => .fin (a + b)

/-- IEEE subtraction. -/
def sub (a b : FVal) : FVal := a.add b.neg

/-- IEEE multiplication (exact on finite values). -/
def mul : FVal → FVal → FVal
  | .nan, _ => .nan
  | .fin _, .nan => .nan
  | .inf _, .nan => .nan
  | .inf s, .inf t => .inf (s == t)
  | .inf s, .fin q => if q = 0 then .nan else .inf (s == decide (0 < q))
  | .fin q, .inf s => if q = 0 then .nan else .inf (s == decide (0 < q))
  | .fin a, .fin b => .fin (a * b)

/-- IEEE division (exact on finite values; the model has no negative zero, so
a zero denominator carries positive sign). -/
def div : FVal → FVal → FVal
  | .nan, _ => .nan
  | .fin _, .nan => .nan
  | .inf _, .nan => .nan
  | .inf _, .inf _ => .nan
  | .inf s, .fin q => .inf (s == decide (0 ≤ q))
  | .fin _, .inf _ => .fin 0
  | .fin a, .fin b =>
    if b = 0 then (if a = 0 then .nan else .inf (decide (0 < a))) else .fin (a / b)

/-- `PartialOrd::partial_cmp` on `f64`: NaN compares to nothing, otherwise the
usual order with the infinities at the ends. -/
def fcmp : FVal → FVal → Option Ordering
  | .nan, _ => none
  | .fin _, .nan => none
  | .inf _, .nan => none
  | .inf s, .inf t =>
    some (if s = t then .eq else if t then .lt else .gt)
  | .inf s, .fin _ => some (if s then .gt else .lt)
  | .fin _, .inf t => some (if t then .lt else .gt)
  | .fin a, .fin b => some (if a < b then .lt else if b < a then .gt else .eq)

/-- Boolean `a ≤ b` derived from `fcmp` (false when incomparable). -/
def fle (a b : FVal) : Bool :=
  match fcmp a b with
  | some .lt => true
  | some .eq => true
  | _ => false

/-- `f64::min` (ignores a NaN argument, returns the smaller value). -/
def fmin (a b : FVal) : FVal :=
  match a, b with
  | .nan, _ => b
  | .fin _, .nan => a
  | .inf _, .nan => a
  | _, _ => match fcmp a b with
    | some .gt => b
    | _ => a

/-- `f64::max` (ignores a NaN argument, returns the larger value). -/
def fmax (a b : FVal) : FVal :=
  match a, b with
  | .nan, _ => b
  | .fin _, .nan => a
  | .inf _, .nan => a
  | _, _ => match fcmp a b with
    | some .lt => b
    | _ => a

/-- The rational carried by a finite value (junk `0` on the specials). -/
def toRat : FVal → ℚ
  | .fin q => q
  | _ => 0

end FVal

/-- `rand::Rng::gen_range(lo..=hi)` for one unit draw `u` from `[0, 1]`
(`[0, 1)` for a half-open range): the affine stretch of the draw. -/
def genRange (lo hi u : ℚ) : ℚ := lo + (hi - lo) * u

/-! ## Fitness calculator (`src/lib/evo/src/fitness_calc`) -/

/-- `fitness_calc::Error`: the classified fitness-evaluation failures. -/
inductive FitnessError where
  | cannotConvert
  | resultNaN
  | resultInfinite
deriving DecidableEq, Repr

/-- `TrainingRecord`: an (input, expected-output) pair. -/
structure TrainingRecord where
  input : List FVal
  output : List FVal
deriving DecidableEq, Repr

/-- `TrainingRecord::get_mse`: squared error of each paired (expected, actual)
element; `powi(2)` is squaring. -/
def TrainingRecord.getMse (r : TrainingRecord) (actual : List FVal) : List FVal :=
  List.zipWith (fun e a => FVal.mul (FVal.sub e a) (FVal.sub e a)) r.output actual

/-- `convert`: `usize` to `f64`, failing when the value does not round-trip.
A `Nat` round-trips through binary64 iff it is below `2^53` or has at most 53
significant bits. -/
def convert (x : Nat) : Except FitnessError FVal :=
  if x < 2 ^ 53 ∨ 2 ^ (Nat.log2 x - 52) ∣ x then .ok (.fin (x : ℚ))
  else .error .cannotConvert

/-- `checked_divide`: divide, classifying a NaN or infinite result as an
error. -/
def checkedDivide (numerator denominator : FVal) : Except FitnessError FVal :=
  if (FVal.div numerator denominator).isNan then .error .resultNaN
  else if (FVal.div numerator denominator).isInfinite then .error .resultInfinite
  else .ok (FVal.div numerator denominator)

/-- `x.iter().sum::<f64>()`: left fold of IEEE addition from `0.0`. -/
def fsum (xs : List FVal) : FVal := xs.foldl FVal.add (.fin 0)

/-- One step of `Sum for Result`: keep the first error, otherwise add. -/
def exceptAddStep (acc x : Except FitnessError FVal) : Except FitnessError FVal := do
  let a ← acc
  let v ← x
  pure (a.add v)

/-- `.sum::<Result<f64>>()`: the first error short-circuits, otherwise the
values are summed from `0.0`. -/
def resultSum (l : List (Except FitnessError FVal)) : Except FitnessError FVal :=
  l.foldl exceptAddStep (.ok (.fin 0))

/-- `Calc::get_mse_iter`: the per-record squared-error lists for a predictor. -/
def getMseIter (training : List TrainingRecord) (predictFn : List FVal → List FVal) :
    List (List FVal) :=
  training.map (fun t => t.getMse (predictFn t.input))

/-- `Calc::check`: per-record mean squared error, averaged over the records,
with every division checked. -/
def check (training : List TrainingRecord) (predictFn : List FVal → List FVal) :
    Except FitnessError FVal := do
  let len ← convert training.length
  let mseSum ← resultSum ((getMseIter training predictFn).map (fun x => do
    let xLen ← convert x.length
    let xSum := fsum x
    checkedDivide xSum xLen))
  checkedDivide mseSum len

/-- Mean of a list of values, written as the specification reads: the sum
divided by the element count. -/
def specMean (xs : List FVal) : FVal := FVal.div (fsum xs) (.fin (xs.length : ℚ))

/-- Fitness as §4.1 of the specification words it: the mean over the training
records of the per-record mean, over paired (expected, actual) elements, of
`(expected - actual)^2`. -/
def specFitness (training : List TrainingRecord) (predictFn : List FVal → List FVal) : FVal :=
  specMean ((getMseIter training predictFn).map specMean)

/-! ## Algorithm (`src/lib/evo/src/algo`) -/

/-- `CompareRecord`: a computed fitness paired with the genome it scores. -/
structure CompareRecord (α : Type) where
  fitness : FVal
  predict : α
deriving DecidableEq, Repr

/-- `PartialOrd for CompareRecord`: compare by fitness only. -/
def recordCmp {α : Type} (l r : CompareRecord α) : Option Ordering :=
  FVal.fcmp l.fitness r.fitness

/-- `Tournament::tournament_size`: the effective sample size. -/
def tournamentSize (ts : Nat) (candidatesLen : Nat) : Nat :=
  min ts candidatesLen

/-- `Tournament::tournament_iter`: shuffle the index space (modelled by the
explicit index list `perm`), take the effective sample size, and look the
indices up in the candidate pool. -/
def tournamentIter {α : Type} (ts : Nat) (perm : List Nat)
    (candidates : List (CompareRecord α)) : List (CompareRecord α) :=
  (perm.take (tournamentSize ts candidates.length)).filterMap
    (fun i => candidates[i]?)

/-- One step of the winner fold in `Tournament::select`: keep the current
winner only when it compares strictly less than the candidate. -/
def selectStep {α : Type} (winner : Option (CompareRecord α)) (candidate : CompareRecord α) :
    Option (CompareRecord α) :=
  some (match winner with
    | none => candidate
    | some w =>
      match recordCmp w candidate with
      | some .lt => w
      | _ => candidate)

/-- `Tournament::select`: fold the sampled candidates, keeping the winner. -/
def select {α : Type} (ts : Nat) (perm : List Nat)
    (candidates : List (CompareRecord α)) : Option (CompareRecord α) :=
  (tournamentIter ts perm candidates).foldl selectStep none

/-- `sort_by`'s comparator in `sort_generation`: `partial_cmp` with `Equal`
for incomparable records; `sort_by` sorts ascending, so `a` may precede `b`
iff the comparator does not return `Greater`. -/
def sortLe {α : Type} (l r : CompareRecord α) : Bool :=
  ((recordCmp l r).getD .eq) != .gt

/-- `sort_generation`: stable ascending sort of the ranked generation. -/
def sortGeneration {α : Type} (candidates : List (CompareRecord α)) :
    List (CompareRecord α) :=
  candidates.mergeSort sortLe

/-- `unrank_generation`: drop the fitness wrappers. -/
def unrankGeneration {α : Type} (ranked : List (CompareRecord α)) : List α :=
  ranked.map (·.predict)

/-- Modelled from the spec: `FitnessCalc::create_compare_record` is not under
`src/` (only its caller `Run::rank_generation` is); per §4.5 step 1 it
evaluates the genome's fitness and pairs it with the genome, propagating the
evaluation error. -/
def createCompareRecord {α : Type} (chk : α → Except FitnessError FVal) (g : α) :
    Except FitnessError (CompareRecord α) :=
  (chk g).map (fun f => ⟨f, g⟩)

/-- `Run::rank_generation`: evaluate every genome, silently dropping the ones
whose fitness evaluation fails. -/
def rankGeneration {α : Type} (chk : α → Except FitnessError FVal) (gen : List α) :
    List (CompareRecord α) :=
  gen.filterMap (fun g => (createCompareRecord chk g).toOption)

/-- `BreedManager::breed`: crossover, then mutate. -/
def breedManager {α : Type} (crossoverFn : α → α → α) (mutateFn : α → α) (l r : α) : α :=
  mutateFn (crossoverFn l r)

/-- `Run::partition_elite`: sort the ranked pool ascending, unrank it, and
keep the first `min(elitism, pool size)` genomes. -/
def partitionElite {α : Type} (elitism : Nat) (ranked : List (CompareRecord α)) : List α :=
  let sorted := unrankGeneration (sortGeneration ranked)
  sorted.take (min elitism sorted.length)

/-- `rand::thread_rng().gen_range(0..n)` for a raw seed: `none` models the
panic on an empty range. -/
def genRangeNat (n : Nat) (seed : Nat) : Option Nat :=
  if n = 0 then none else some (seed % n)

/-- The loop of `inject::genomes`: each elite genome overwrites the slot at a
random index of the target generation; `generation_size` is computed once
before the loop. -/
def injectLoop {α : Type} (sz : Nat) (seeds : Nat → Nat) :
    Nat → List α → List α → Option (List α)
  | _, gen, [] => some gen
  | k, gen, ge :: rest =>
    match genRangeNat sz (seeds k) with
    | none => none
    | some i => injectLoop sz seeds (k + 1) (gen.set i ge) rest

/-- `inject::genomes`: splice the elite genomes into random slots of the
generation. -/
def injectGenomes {α : Type} (generation elite : List α) (seeds : Nat → Nat) :
    Option (List α) :=
  injectLoop generation.length seeds 0 generation elite

/-- `Run::new_generation`: breed offspring from tournament-selected parents
until the next generation reaches the size of the (ranked) parent generation.
The loop is fuelled; `none` models non-termination within the fuel.  `perms`
supplies the two shuffles of each iteration. -/
def newGenerationLoop {α : Type} (crossoverFn : α → α → α) (mutateFn : α → α)
    (chk : α → Except FitnessError FVal) (ts : Nat)
    (parent : List (CompareRecord α)) (perms : Nat → List Nat × List Nat) :
    Nat → Nat → List (CompareRecord α) → Option (List (CompareRecord α))
  | 0, _, acc => if parent.length ≤ acc.length then some acc else none
  | fuel + 1, step, acc =>
    if parent.length ≤ acc.length then some acc
    else
      match select ts (perms step).1 parent, select ts (perms step).2 parent with
      | some lw, some rw =>
        let child := breedManager crossoverFn mutateFn lw.predict rw.predict
        match chk child with
        | .ok fitness =>
          newGenerationLoop crossoverFn mutateFn chk ts parent perms fuel (step + 1)
            (acc ++ [⟨fitness, child⟩])
        | .error _ =>
          newGenerationLoop crossoverFn mutateFn chk ts parent perms fuel (step + 1) acc
      | _, _ =>
        newGenerationLoop crossoverFn mutateFn chk ts parent perms fuel (step + 1) acc

/-- `Run::run`: rank, breed the next generation, extract the elite from the
ranked pool, and inject the elite into the next generation. -/
def run {α : Type} (crossoverFn : α → α → α) (mutateFn : α → α)
    (chk : α → Except FitnessError FVal) (elitism ts : Nat)
    (perms : Nat → List Nat × List Nat) (injSeeds : Nat → Nat) (fuel : Nat)
    (generation : List α) : Option (List α) :=
  let ranked := rankGeneration chk generation
  match newGenerationLoop crossoverFn mutateFn chk ts ranked perms fuel 0 [] with
  | none => none
  | some next =>
    let nextGeneration := unrankGeneration next
    let elite := partitionElite elitism ranked
    injectGenomes nextGeneration elite injSeeds

/-! ## Genome operators (`src/lib/farm/src`) -/

/-- `f64::EPSILON`, the machine epsilon `2^-52`. -/
def epsilonF : ℚ := 1 / 2 ^ 52

/-- `Crossover for f64`: substitute a NaN/infinite parent by a uniform draw
from `[-1, 1]`, then return the lower parent when the parents agree within
`EPSILON`, otherwise a uniform draw from `[min, max]`.  `uA`, `uB` and
`uPick` are the unit draws of the three `gen_range` calls. -/
def crossoverF64 (a b : FVal) (uA uB uPick : ℚ) : FVal :=
  let a' : ℚ := if a.isNan || a.isInfinite then genRange (-1) 1 uA else a.toRat
  let b' : ℚ := if b.isNan || b.isInfinite then genRange (-1) 1 uB else b.toRat
  let mn := min a' b'
  let mx := max a' b'
  if |mx - mn| < epsilonF then .fin mn else .fin (genRange mn mx uPick)

/-- `Crossover for Vec<T>`: element-wise crossover over the overlapping
prefix, then the surplus tail of the longer parent unchanged.  The element
crossover (with its randomness already threaded) is the parameter `f`. -/
def listCrossover {α : Type} (f : α → α → α) (a b : List α) : List α :=
  let minSize := min a.length b.length
  let rest := if a.length < b.length then b.drop minSize else a.drop minSize
  List.zipWith f a b ++ rest

/-- `Mutator`: the stochastic gate (rate) and magnitude (size) configuration. -/
structure Mutator where
  mutation_rate : ℚ
  mutation_size : ℚ
deriving DecidableEq, Repr

/-- `Mutator::check_mutate` for a unit draw `u` from `[0, 1)`: Bernoulli draw
with probability `mutation_rate`. -/
def Mutator.checkMutate (m : Mutator) (u : ℚ) : Bool :=
  decide (genRange 0 1 u < m.mutation_rate)

/-- `Mutator::mutation_size` for a unit draw `u`: the configured size scaled
by a uniform draw from `[-1, 1)`. -/
def Mutator.mutationSizeDraw (m : Mutator) (u : ℚ) : ℚ :=
  m.mutation_size * genRange (-1) 1 u

/-- The unit draws a single `f64` (or `bool`, or activation gene) mutation
consumes: one `mutation_size()` call for the sign gate, one `check_mutate()`
call, and the `random()` and second `mutation_size()` calls of the addend. -/
structure ScalarDraws where
  uSizeGate : ℚ
  uGate : ℚ
  uRand : ℚ
  uSize2 : ℚ
deriving DecidableEq, Repr

/-- `Target for f64`: when `mutation_size() > 0.0 && check_mutate()`, add
`random() * mutation_size()` (a fresh size draw). -/
def mutateF64 (m : Mutator) (d : ScalarDraws) (x : FVal) : FVal :=
  if 0 < m.mutationSizeDraw d.uSizeGate ∧ m.checkMutate d.uGate then
    x.add (.fin (genRange 0 1 d.uRand * m.mutationSizeDraw d.uSize2))
  else x

/-- `activator::Gene`: the closed choice of activation function. -/
inductive AGene where
  | linear
  | sigmoid
deriving DecidableEq, Repr

/-- The draws a `Gene` mutation consumes: the two gate draws and the randomly
generated replacement gene. -/
structure GeneDraws where
  uSizeGate : ℚ
  uGate : ℚ
  newGene : AGene
deriving DecidableEq, Repr

/-- `Target for activator::Gene`: with the same gate, replace the gene by a
random one. -/
def mutateGene (m : Mutator) (d : GeneDraws) (g : AGene) : AGene :=
  if 0 < m.mutationSizeDraw d.uSizeGate ∧ m.checkMutate d.uGate then d.newGene else g

/-- `activator::Genome`. -/
structure ActivatorGenome where
  activator : AGene
deriving DecidableEq, Repr

/-- `Target for activator::Genome`: delegate to the gene. -/
def mutateActivator (m : Mutator) (d : GeneDraws) (g : ActivatorGenome) : ActivatorGenome :=
  ⟨mutateGene m d g.activator⟩

/-- `Target for Vec<f64>`: element-wise mutation, the draw stream keyed by
position. -/
def mutateVecF64 (m : Mutator) (ds : Nat → ScalarDraws) (ws : List FVal) : List FVal :=
  ws.mapIdx (fun i w => mutateF64 m (ds i) w)

/-- `VecMutation`: the structural sequence-mutation instructions. -/
inductive VecMutation (T : Type) where
  | insert (i : Nat) (t : T)
  | replace (i : Nat) (t : T)
  | remove (i : Nat)
  | swap (i j : Nat)
  | reverse (i j : Nat)
deriving DecidableEq, Repr

/-- `VecMutation::new`: pick the operator uniformly (`rc` seeds
`gen_range(0..5)`) and the indices uniformly in `0..len` (`ra`, `rb` seed
`gen_range(0..len)`, which requires `len > 0` at every call site). -/
def VecMutation.new {T : Type} (len : Nat) (factoryVal : T) (rc ra rb : Nat) :
    VecMutation T :=
  match rc % 5 with
  | 0 => .insert (ra % len) factoryVal
  | 1 => .replace (ra % len) factoryVal
  | 2 => .remove (ra % len)
  | 3 => .swap (ra % len) (rb % len)
  | _ => .reverse (ra % len) (rb % len)

/-- `VecMutation::apply`: apply the instruction; `none` models the panic of an
out-of-bounds index or slice. -/
def VecMutation.apply {T : Type} : VecMutation T → List T → Option (List T)
  | .insert i t, v => if i ≤ v.length then some (v.insertIdx i t) else none
  | .replace i t, v => if i < v.length then some (v.set i t) else none
  | .remove i, v => if i < v.length then some (v.eraseIdx i) else none
  | .swap i j, v =>
    if h : i < v.length ∧ j < v.length then
      some ((v.set i (v.get ⟨j, h.2⟩)).set j (v.get ⟨i, h.1⟩))
    else none
  | .reverse i j, v =>
    let mn := min i j
    let mx := max i j
    if mn = mx then some v
    else if mx < v.length then
      some (v.take mn ++ ((v.drop mn).take (mx - mn + 1)).reverse ++ v.drop (mx + 1))
    else none

/-- The finite, non-NaN weights of a neuron (the filter in `mutate_weights`). -/
def finiteVals (ws : List FVal) : List ℚ :=
  ws.filterMap (fun w => match w with
    | .fin q => some q
    | _ => none)

/-- The fold in `mutate_weights` computing the observed finite `[min, max]`
range of the weights. -/
def finiteMinMax (ws : List FVal) : Option ℚ × Option ℚ :=
  (finiteVals ws).foldl
    (fun p n =>
      (some (match p.1 with
        | some m => min n m
        | none => n),
       some (match p.2 with
        | some m => max n m
        | none => n)))
    (none, none)

/-- `neuron::mutate_weights`: when the finite weights span a non-trivial
range, draw a structural mutation; apply it only when it is one of
`Swap`, `Replace`, `Reverse`, discarding `Insert` and `Remove`. -/
def mutateWeights (ws : List FVal) (rc ra rb : Nat) (uFactory : ℚ) :
    Option (List FVal) :=
  match finiteMinMax ws with
  | (some mn, some mx) =>
    if mn < mx then
      let vm := VecMutation.new ws.length (FVal.fin (genRange mn mx uFactory)) rc ra rb
      match vm with
      | .swap _ _ => vm.apply ws
      | .replace _ _ => vm.apply ws
      | .reverse _ _ => vm.apply ws
      | _ => some ws
    else some ws
  | _ => some ws

/-- `neuron::Genome`: an activation choice, the weights, and the bias. -/
structure NeuronGenome where
  activator : ActivatorGenome
  weights : List FVal
  bias : FVal
deriving DecidableEq, Repr

/-- The randomness one neuron mutation consumes. -/
structure NeuronDraws where
  actDraws : GeneDraws
  weightDraws : Nat → ScalarDraws
  biasDraws : ScalarDraws
  uStructGate : ℚ
  rc : Nat
  ra : Nat
  rb : Nat
  uFactory : ℚ

/-- `Target for neuron::Genome`: mutate the activator, the weights
element-wise, and the bias; then, gated by `check_mutate`, apply the
structural weight mutation.  `none` models a panic (which the call site's
guards rule out). -/
def NeuronGenome.mutate (g : NeuronGenome) (m : Mutator) (d : NeuronDraws) :
    Option NeuronGenome :=
  let act := mutateActivator m d.actDraws g.activator
  let ws := mutateVecF64 m d.weightDraws g.weights
  let bias := mutateF64 m d.biasDraws g.bias
  if m.checkMutate d.uStructGate then
    match mutateWeights ws d.rc d.ra d.rb d.uFactory with
    | some ws2 => some ⟨act, ws2, bias⟩
    | none => none
  else some ⟨act, ws, bias⟩

/-- The values a squared error can take: NaN, plus infinity, or a
non-negative finite value. -/
def IsMseVal (v : FVal) : Prop :=
  v = .nan ∨ v = .inf true ∨ ∃ q, v = .fin q ∧ 0 ≤ q

/-- Fitness evaluator of the concrete run examples: one training record with
no inputs and expected output `[0]`, a genome being its own constant
prediction (as in the `Run` doctests, where `predict` scales the input). -/
def chkConst (g : FVal) : Except FitnessError FVal :=
  check [⟨[], [.fin 0]⟩] (fun _ => [g])

/-! ## Claim theorems -/

/-- C6: for all finite, non-NaN parents `a` and `b`, `crossover(a, b)` is a
finite value in the closed interval `[min(a,b), max(a,b)]`, and when `a = b`
the result is exactly `a`; this holds for every admissible blend draw. -/
theorem crossoverF64_blend_bounds (a b uA uB uPick : ℚ)
    (h0 : 0 ≤ uPick) (h1 : uPick ≤ 1) :
    (∃ q, crossoverF64 (.fin a) (.fin b) uA uB uPick = .fin q ∧
      min a b ≤ q ∧ q ≤ max a b)
    ∧ (a = b → crossoverF64 (.fin a) (.fin b) uA uB uPick = .fin a) := by
  have hunfold : crossoverF64 (.fin a) (.fin b) uA uB uPick =
      (if |max a b - min a b| < epsilonF then FVal.fin (min a b)
       else FVal.fin (genRange (min a b) (max a b) uPick)) := by
    simp [crossoverF64, FVal.isNan, FVal.isInfinite, FVal.toRat]
  constructor
  · by_cases h : |max a b - min a b| < epsilonF
    · exact ⟨min a b, by rw [hunfold, if_pos h], le_refl _, min_le_max⟩
    · refine ⟨genRange (min a b) (max a b) uPick, by rw [hunfold, if_neg h], ?_, ?_⟩
      · have hmm : min a b ≤ max a b := min_le_max
        have : 0 ≤ (max a b - min a b) * uPick :=
          mul_nonneg (by linarith) h0
        simp only [genRange]
        linarith
      · have hmm : min a b ≤ max a b := min_le_max
        have : (max a b - min a b) * uPick ≤ (max a b - min a b) * 1 := by
          apply mul_le_mul_of_nonneg_left h1
          linarith
        simp only [genRange]
        linarith
  · intro hab
    subst hab
    have heps : (0 : ℚ) < epsilonF := by norm_num [epsilonF]
    rw [hunfold, if_pos (by simp [heps])]
    simp

/-- C6 witness: at `a = 1`, `b = 3` with blend draw `1/2` the bounds hold. -/
theorem crossoverF64_blend_bounds_witness :
    (∃ q, crossoverF64 (.fin 1) (.fin 3) 0 0 (1 / 2) = .fin q ∧
      min (1 : ℚ) 3 ≤ q ∧ q ≤ max (1 : ℚ) 3)
    ∧ ((1 : ℚ) = 3 → crossoverF64 (.fin 1) (.fin 3) 0 0 (1 / 2) = .fin 1) :=
  crossoverF64_blend_bounds 1 3 0 0 (1 / 2) (by norm_num) (by norm_num)

/-- C7: sequence crossover yields a sequence of length
`max(len(a), len(b))`; the overlapping prefix is crossed element-wise and
past the overlap the result agrees with the longer parent. -/
theorem listCrossover_length_spec {α : Type} (f : α → α → α) (a b : List α) :
    (listCrossover f a b).length = max a.length b.length
    ∧ (∀ (i : Nat) x y, a[i]? = some x → b[i]? = some y →
        (listCrossover f a b)[i]? = some (f x y))
    ∧ (∀ i, min a.length b.length ≤ i →
        (listCrossover f a b)[i]? = (if a.length < b.length then b else a)[i]?) := by
  refine ⟨?_, ?_, ?_⟩
  · simp only [listCrossover, List.length_append, List.length_zipWith, List.length_drop]
    by_cases h : a.length < b.length <;> simp [h] <;> omega
  · intro i x y hx hy
    have hia : i < a.length := by
      by_contra hc
      rw [List.getElem?_eq_none (by omega)] at hx
      exact Option.noConfusion hx
    have hib : i < b.length := by
      by_contra hc
      rw [List.getElem?_eq_none (by omega)] at hy
      exact Option.noConfusion hy
    have hlen : i < (List.zipWith f a b).length := by
      rw [List.length_zipWith]
      omega
    simp only [listCrossover]
    rw [List.getElem?_append, if_pos hlen, List.getElem?_zipWith, hx, hy]
  · intro i hi
    have hlen : ¬ i < (List.zipWith f a b).length := by
      rw [List.length_zipWith]
      omega
    simp only [listCrossover]
    rw [List.getElem?_append, if_neg hlen]
    rw [List.length_zipWith]
    by_cases h : a.length < b.length
    · simp only [if_pos h]
      rw [List.getElem?_drop]
      congr 1
      omega
    · simp only [if_neg h]
      rw [List.getElem?_drop]
      congr 1
      omega

/-- C7 witness: crossing `[x0, x1]` with `[y0, y1, y2]` at concrete values. -/
theorem listCrossover_length_spec_witness :
    ((listCrossover Nat.add [1, 2] [10, 20, 30]).length =
      max [1, 2].length [10, 20, 30].length)
    ∧ (∀ (i : Nat) x y, [1, 2][i]? = some x → [10, 20, 30][i]? = some y →
        (listCrossover Nat.add [1, 2] [10, 20, 30])[i]? = some (Nat.add x y))
    ∧ (∀ i, min [1, 2].length [10, 20, 30].length ≤ i →
        (listCrossover Nat.add [1, 2] [10, 20, 30])[i]? =
          (if [1, 2].length < [10, 20, 30].length then [10, 20, 30] else [1, 2])[i]?) :=
  listCrossover_length_spec Nat.add [1, 2] [10, 20, 30]

/-- The inject loop, when it succeeds, preserves the generation length and
only ever writes elite genomes over existing slots. -/
theorem injectLoop_spec {α : Type} (sz : Nat) (seeds : Nat → Nat) :
    ∀ (elite : List α) (k : Nat) (cur : List α), cur.length = sz →
      (0 < sz ∨ elite = []) →
      ∃ out, injectLoop sz seeds k cur elite = some out ∧ out.length = sz ∧
        (∀ (i : Nat) x, out[i]? = some x → x ∈ elite ∨ cur[i]? = some x) := by
  intro elite
  induction elite with
  | nil =>
    intro k cur hlen _
    exact ⟨cur, rfl, hlen, fun i x hx => Or.inr hx⟩
  | cons ge rest ih =>
    intro k cur hlen hsz
    have hpos : 0 < sz := by
      rcases hsz with h | h
      · exact h
      · exact absurd h (by simp)
    have hgen : genRangeNat sz (seeds k) = some (seeds k % sz) := by
      simp only [genRangeNat, if_neg (Nat.pos_iff_ne_zero.mp hpos)]
    obtain ⟨out, hout, houtlen, hmem⟩ :=
      ih (k + 1) (cur.set (seeds k % sz) ge) (by simp [hlen]) (Or.inl hpos)
    refine ⟨out, ?_, houtlen, ?_⟩
    · simp only [injectLoop, hgen]
      exact hout
    · intro i x hx
      rcases hmem i x hx with h | h
      · exact Or.inl (List.mem_cons_of_mem _ h)
      · rw [List.getElem?_set] at h
        by_cases hidx : seeds k % sz = i
        · rw [if_pos hidx] at h
          by_cases hbound : seeds k % sz < cur.length
          · rw [if_pos hbound] at h
            exact Or.inl (by simp [← Option.some_inj.mp h])
          · rw [if_neg hbound] at h
            exact Option.noConfusion h
        · rw [if_neg hidx] at h
          exact Or.inr h

/-- C10: when the target generation is non-empty or there are no elites,
`inject::genomes` is total, preserves the generation length, and each slot of
the result holds either an elite genome or its original genome; when the
target is empty and an elite exists, the random-index draw is over an empty
range and the function panics (modelled by `none`). -/
theorem inject_genomes_spec {α : Type} (g e : List α) (seeds : Nat → Nat) :
    ((g ≠ [] ∨ e = []) → ∃ out, injectGenomes g e seeds = some out ∧
      out.length = g.length ∧
      (∀ (i : Nat) x, out[i]? = some x → x ∈ e ∨ g[i]? = some x))
    ∧ (g = [] → e ≠ [] → injectGenomes g e seeds = none) := by
  constructor
  · intro h
    apply injectLoop_spec g.length seeds e 0 g rfl
    rcases h with h | h
    · exact Or.inl (List.length_pos.mpr h)
    · exact Or.inr h
  · intro hg he
    subst hg
    rcases e with _ | ⟨ge, rest⟩
    · exact absurd rfl he
    · simp [injectGenomes, injectLoop, genRangeNat]

/-- C10 witness: a singleton generation with one elite succeeds; an empty
generation with an elite panics. -/
theorem inject_genomes_spec_witness :
    (∃ out, injectGenomes [1] [2] (fun _ => 0) = some out ∧
      out.length = [1].length ∧
      (∀ (i : Nat) x, out[i]? = some x → x ∈ [2] ∨ [1][i]? = some x))
    ∧ injectGenomes ([] : List Nat) [2] (fun _ => 0) = none :=
  ⟨(inject_genomes_spec [1] [2] (fun _ => 0)).1 (Or.inl (by simp)),
   (inject_genomes_spec ([] : List Nat) [2] (fun _ => 0)).2 rfl (by simp)⟩

/-- A structural weight mutation chosen as `Insert` or `Remove` is discarded
by the neuron-level caller: the weights are returned unchanged. -/
theorem mutateWeights_discards_insert_remove (ws : List FVal) (rc ra rb : Nat) (uF : ℚ)
    (h : rc % 5 = 0 ∨ rc % 5 = 2) :
    mutateWeights ws rc ra rb uF = some ws := by
  unfold mutateWeights
  rcases h1 : finiteMinMax ws with ⟨o1, o2⟩
  rcases o1 with _ | mn <;> rcases o2 with _ | mx <;> simp only []
  by_cases hlt : mn < mx
  · rw [if_pos hlt]
    rcases h with h | h <;> simp [VecMutation.new, h]
  · rw [if_neg hlt]

/-- If the finite-weight fold yields a minimum, the weight list is
non-empty. -/
theorem finiteMinMax_fst_some_ne_nil (ws : List FVal) (mn : ℚ)
    (h : (finiteMinMax ws).1 = some mn) : ws ≠ [] := by
  intro hnil
  subst hnil
  simp [finiteMinMax, finiteVals] at h

/-- `mutate_weights` always succeeds and preserves the number of weights. -/
theorem mutateWeights_length (ws : List FVal) (rc ra rb : Nat) (uF : ℚ) :
    ∃ ws2, mutateWeights ws rc ra rb uF = some ws2 ∧ ws2.length = ws.length := by
  unfold mutateWeights
  rcases h1 : finiteMinMax ws with ⟨o1, o2⟩
  rcases o1 with _ | mn
  · exact ⟨ws, rfl, rfl⟩
  rcases o2 with _ | mx
  · exact ⟨ws, rfl, rfl⟩
  simp only []
  by_cases hlt : mn < mx
  · rw [if_pos hlt]
    have hne : ws ≠ [] := finiteMinMax_fst_some_ne_nil ws mn (by rw [h1])
    have hpos : 0 < ws.length := List.length_pos.mpr hne
    have h5 : rc % 5 = 0 ∨ rc % 5 = 1 ∨ rc % 5 = 2 ∨ rc % 5 = 3 ∨ rc % 5 = 4 := by omega
    have hra : ra % ws.length < ws.length := Nat.mod_lt _ hpos
    have hrb : rb % ws.length < ws.length := Nat.mod_lt _ hpos
    rcases h5 with h | h | h | h | h
    · simp [VecMutation.new, h]
    · refine ⟨ws.set (ra % ws.length) (FVal.fin (genRange mn mx uF)), ?_, by simp⟩
      simp [VecMutation.new, h, VecMutation.apply, hra]
    · simp [VecMutation.new, h]
    · simp only [VecMutation.new, h]
      simp only [VecMutation.apply, dif_pos (And.intro hra hrb)]
      exact ⟨_, rfl, by simp⟩
    · simp only [VecMutation.new, h]
      by_cases heq : min (ra % ws.length) (rb % ws.length) = max (ra % ws.length) (rb % ws.length)
      · refine ⟨ws, ?_, rfl⟩
        simp [VecMutation.apply, heq]
      · have hmx : max (ra % ws.length) (rb % ws.length) < ws.length := by omega
        simp only [VecMutation.apply]
        rw [if_neg heq, if_pos hmx]
        refine ⟨_, rfl, ?_⟩
        simp only [List.length_append, List.length_take, List.length_reverse,
          List.length_drop]
        omega
  · exact ⟨ws, by rw [if_neg hlt], rfl⟩

/-- C8: neuron mutation always succeeds and preserves the length of the
weights vector; moreover a generated `Insert` or `Remove` structural mutation
is discarded (the weights pass through the structural step unchanged). -/
theorem neuron_mutate_weight_length (g : NeuronGenome) (m : Mutator) (d : NeuronDraws) :
    (∃ g2, g.mutate m d = some g2 ∧ g2.weights.length = g.weights.length)
    ∧ (∀ (ws : List FVal) (rc ra rb : Nat) (uF : ℚ), rc % 5 = 0 ∨ rc % 5 = 2 →
        mutateWeights ws rc ra rb uF = some ws) := by
  constructor
  · unfold NeuronGenome.mutate
    have hvlen : (mutateVecF64 m d.weightDraws g.weights).length = g.weights.length := by
      simp [mutateVecF64]
    by_cases hgate : m.checkMutate d.uStructGate
    · simp only [hgate, if_true]
      obtain ⟨ws2, hws2, hlen⟩ :=
        mutateWeights_length (mutateVecF64 m d.weightDraws g.weights) d.rc d.ra d.rb d.uFactory
      rw [hws2]
      exact ⟨_, rfl, by rw [hlen, hvlen]⟩
    · simp only [hgate, if_false]
      exact ⟨_, rfl, hvlen⟩
  · intro ws rc ra rb uF h
    exact mutateWeights_discards_insert_remove ws rc ra rb uF h

/-- C8 witness: a two-weight neuron at concrete draws keeps both weights, and
an `Insert` choice (seed 5) leaves the weights untouched. -/
theorem neuron_mutate_weight_length_witness :
    (∃ g2, NeuronGenome.mutate ⟨⟨.linear⟩, [.fin 0, .fin 1], .fin 0⟩ ⟨0, 0⟩
        ⟨⟨0, 0, .linear⟩, fun _ => ⟨0, 0, 0, 0⟩, ⟨0, 0, 0, 0⟩, 0, 5, 0, 0, 0⟩ = some g2 ∧
      g2.weights.length = ([FVal.fin 0, FVal.fin 1]).length)
    ∧ mutateWeights [FVal.fin 0, FVal.fin 1] 5 0 0 0 = some [FVal.fin 0, FVal.fin 1] :=
  ⟨(neuron_mutate_weight_length ⟨⟨.linear⟩, [.fin 0, .fin 1], .fin 0⟩ ⟨0, 0⟩
      ⟨⟨0, 0, .linear⟩, fun _ => ⟨0, 0, 0, 0⟩, ⟨0, 0, 0, 0⟩, 0, 5, 0, 0, 0⟩).1,
   (neuron_mutate_weight_length ⟨⟨.linear⟩, [.fin 0, .fin 1], .fin 0⟩ ⟨0, 0⟩
      ⟨⟨0, 0, .linear⟩, fun _ => ⟨0, 0, 0, 0⟩, ⟨0, 0, 0, 0⟩, 0, 5, 0, 0, 0⟩).2
     [FVal.fin 0, FVal.fin 1] 5 0 0 0 (Or.inl (by decide))⟩

/-- Looking every index of `0..len` up in a list reproduces the list. -/
theorem filterMap_getElem_range {α : Type} (l : List α) :
    (List.range l.length).filterMap (fun i => l[i]?) = l := by
  induction l with
  | nil => simp
  | cons x xs ih =>
    rw [List.length_cons, List.range_succ_eq_map, List.filterMap_cons]
    simp only [List.getElem?_cons_zero, List.filterMap_map]
    rw [show ((fun i => (x :: xs)[i]?) ∘ Nat.succ) = fun i => xs[i]? from
      funext fun i => by simp]
    rw [ih]

/-- The winner fold never loses a winner once one exists. -/
theorem foldl_selectStep_some {α : Type} :
    ∀ (l : List (CompareRecord α)) (w : CompareRecord α),
      ∃ r, l.foldl selectStep (some w) = some r := by
  intro l
  induction l with
  | nil => exact fun w => ⟨w, rfl⟩
  | cons c rest ih =>
    intro w
    rw [List.foldl_cons]
    rcases hs : selectStep (some w) c with _ | w2
    · exact absurd hs (by simp [selectStep])
    · exact ih w2

/-- On finite values `fle` is the rational order. -/
theorem fle_fin (a b : ℚ) : FVal.fle (.fin a) (.fin b) = decide (a ≤ b) := by
  simp only [FVal.fle, FVal.fcmp]
  by_cases h1 : a < b
  · simp [h1, le_of_lt h1]
  · by_cases h2 : b < a
    · simp [h1, h2, not_le.mpr h2]
    · have : a = b := le_antisymm (not_lt.mp h2) (not_lt.mp h1)
      simp [h1, h2, this]

/-- The winner fold of `select` computes, over a pool of finite fitnesses,
the record of minimal fitness, with ties resolved in favour of the LAST
record encountered (`Some(Less)` keeps the winner, everything else replaces
it). -/
theorem selectFold_lastMin {α : Type} :
    ∀ (l : List (CompareRecord α)), l ≠ [] →
      (∀ r ∈ l, ∃ q, r.fitness = FVal.fin q) →
      ∃ w, l.foldl selectStep none = some w ∧ w ∈ l ∧
        (∀ c ∈ l, FVal.fle w.fitness c.fitness = true) ∧
        l.reverse.find? (fun c => FVal.fle c.fitness w.fitness) = some w := by
  intro l
  induction l using List.reverseRecOn with
  | nil => intro h; exact absurd rfl h
  | append_singleton init c ih =>
    intro _ hfin
    obtain ⟨qc, hqc⟩ := hfin c (by simp)
    by_cases hinitne : init = []
    · subst hinitne
      refine ⟨c, ?_, by simp, ?_, ?_⟩
      · simp [selectStep]
      · intro x hx
        have hxc : x = c := by simpa using hx
        rw [hxc, hqc, fle_fin]
        simp
      · simp only [List.nil_append, List.reverse_singleton]
        rw [List.find?_cons_of_pos _ (by rw [hqc, fle_fin]; simp)]
    · obtain ⟨w, hw, hwmem, hwmin, hwfind⟩ :=
        ih hinitne (fun r hr => hfin r (List.mem_append_left _ hr))
      obtain ⟨qw, hqw⟩ := hfin w (List.mem_append_left _ hwmem)
      have hstep : selectStep (some w) c = some (if qw < qc then w else c) := by
        simp only [selectStep, recordCmp, hqw, hqc, FVal.fcmp]
        by_cases h : qw < qc
        · simp [h]
        · by_cases h2 : qc < qw <;> simp [h, h2]
      rw [List.foldl_append, hw, List.foldl_cons, hstep, List.foldl_nil]
      by_cases hlt : qw < qc
      · refine ⟨w, by rw [if_pos hlt], List.mem_append_left _ hwmem, ?_, ?_⟩
        · intro x hx
          rcases List.mem_append.mp hx with h | h
          · exact hwmin x h
          · have hxc : x = c := List.mem_singleton.mp h
            rw [hxc, hqc, hqw, fle_fin]
            simp [le_of_lt hlt]
        · rw [List.reverse_append, List.reverse_singleton, List.singleton_append]
          rw [List.find?_cons_of_neg _ (by rw [hqc, hqw, fle_fin]; simp [hlt]),
            hwfind]
      · refine ⟨c, by rw [if_neg hlt], List.mem_append_right _ (by simp), ?_, ?_⟩
        · intro x hx
          rcases List.mem_append.mp hx with h | h
          · obtain ⟨qx, hqx⟩ := hfin x (List.mem_append_left _ h)
            have h1 : qw ≤ qx := by
              have := hwmin x h
              rw [hqw, hqx, fle_fin] at this
              exact of_decide_eq_true this
            rw [hqc, hqx, fle_fin]
            simp only [decide_eq_true_eq]
            have h2 : qc ≤ qw := not_lt.mp hlt
            linarith
          · have hxc : x = c := List.mem_singleton.mp h
            rw [hxc, hqc, fle_fin]
            simp
        · rw [List.reverse_append, List.reverse_singleton, List.singleton_append]
          rw [List.find?_cons_of_pos _ (by rw [hqc, fle_fin]; simp)]

/-- The tournament sample is a permutation of the whole pool once the
configured tournament size reaches the pool size. -/
theorem tournamentIter_perm {α : Type} (ts : Nat) (perm : List Nat)
    (candidates : List (CompareRecord α)) (hts : candidates.length ≤ ts)
    (hperm : perm.Perm (List.range candidates.length)) :
    (tournamentIter ts perm candidates).Perm candidates := by
  have hlen : perm.length = candidates.length := by
    rw [hperm.length_eq, List.length_range]
  have hsize : tournamentSize ts candidates.length = candidates.length :=
    Nat.min_eq_right hts
  have htake : perm.take (tournamentSize ts candidates.length) = perm := by
    rw [hsize, ← hlen, List.take_length]
  rw [tournamentIter, htake]
  have := hperm.filterMap (fun i => candidates[i]?)
  rwa [filterMap_getElem_range] at this

/-- C9: with a positive configured tournament size, `Tournament::select`
returns `None` exactly when the candidate pool is empty. -/
theorem tournament_select_none_iff {α : Type} (ts : Nat) (perm : List Nat)
    (candidates : List (CompareRecord α)) (hts : 1 ≤ ts)
    (hperm : perm.Perm (List.range candidates.length)) :
    (select ts perm candidates = none ↔ candidates = []) := by
  constructor
  · intro hnone
    by_contra hne
    have hpos : 0 < candidates.length := List.length_pos.mpr hne
    have hlen : perm.length = candidates.length := by
      rw [hperm.length_eq, List.length_range]
    rcases hp : perm with _ | ⟨i, rest⟩
    · rw [hp] at hlen
      simp at hlen
      omega
    · have hi : i < candidates.length := by
        have : i ∈ List.range candidates.length :=
          hperm.mem_iff.mp (by rw [hp]; simp)
        simpa using this
      obtain ⟨ci, hci⟩ : ∃ ci, candidates[i]? = some ci :=
        ⟨candidates[i], (List.getElem?_eq_some_iff).mpr ⟨hi, rfl⟩⟩
      have hts2 : 1 ≤ tournamentSize ts candidates.length := by
        simp only [tournamentSize]
        omega
      obtain ⟨m, hm⟩ : ∃ m, tournamentSize ts candidates.length = m + 1 :=
        ⟨tournamentSize ts candidates.length - 1, by omega⟩
      have hsample : tournamentIter ts perm candidates =
          ci :: (rest.take m).filterMap (fun j => candidates[j]?) := by
        rw [tournamentIter, hp, hm, List.take_succ_cons, List.filterMap_cons, hci]
      rw [select, hsample, List.foldl_cons] at hnone
      have hstep : selectStep none ci = some ci := by simp [selectStep]
      rw [hstep] at hnone
      obtain ⟨r, hr⟩ := foldl_selectStep_some
        ((rest.take m).filterMap (fun j => candidates[j]?)) ci
      rw [hr] at hnone
      exact Option.noConfusion hnone
  · intro h
    subst h
    simp [select, tournamentIter, tournamentSize]

/-- C9 witness: a singleton pool yields a winner; the empty pool yields
`None`. -/
theorem tournament_select_none_iff_witness :
    select 3 [0] [(⟨.fin 5, 7⟩ : CompareRecord Nat)] = none ↔
      [(⟨.fin 5, 7⟩ : CompareRecord Nat)] = [] :=
  tournament_select_none_iff 3 [0] [⟨.fin 5, 7⟩] (by decide) (by decide)

/-- C3 counterexample: on the two-record pool of equal fitness `1`, sampled
in order, `select` returns the SECOND record, not the first-encountered one
the claim names. -/
theorem tournament_select_tie_counterexample :
    select 2 [0, 1] [(⟨.fin 1, 0⟩ : CompareRecord Nat), ⟨.fin 1, 1⟩] =
      some ⟨.fin 1, 1⟩ ∧
    (⟨.fin 1, 1⟩ : CompareRecord Nat) ≠ ⟨.fin 1, 0⟩ := by
  constructor
  · decide
  · decide

/-- C3 (amended): for every non-empty pool of finite fitnesses, when the
tournament size reaches the pool size, `select` returns a record whose
fitness is the global minimum of the pool, and among records of equal lowest
fitness the winner is the one LAST encountered in sample order. -/
theorem tournament_select_min {α : Type} (ts : Nat) (perm : List Nat)
    (candidates : List (CompareRecord α))
    (hne : candidates ≠ [])
    (hfin : ∀ r ∈ candidates, ∃ q, r.fitness = FVal.fin q)
    (hts : candidates.length ≤ ts)
    (hperm : perm.Perm (List.range candidates.length)) :
    ∃ w, select ts perm candidates = some w ∧ w ∈ candidates ∧
      (∀ r ∈ candidates, FVal.fle w.fitness r.fitness = true) ∧
      (tournamentIter ts perm candidates).reverse.find?
        (fun c => FVal.fle c.fitness w.fitness) = some w := by
  have hsp : (tournamentIter ts perm candidates).Perm candidates :=
    tournamentIter_perm ts perm candidates hts hperm
  have hsne : tournamentIter ts perm candidates ≠ [] := by
    intro h
    rw [h] at hsp
    exact hne (hsp.nil_eq.symm ▸ rfl)
  have hsfin : ∀ r ∈ tournamentIter ts perm candidates, ∃ q, r.fitness = FVal.fin q :=
    fun r hr => hfin r (hsp.mem_iff.mp hr)
  obtain ⟨w, hw, hwmem, hwmin, hwfind⟩ :=
    selectFold_lastMin (tournamentIter ts perm candidates) hsne hsfin
  exact ⟨w, hw, hsp.mem_iff.mp hwmem,
    fun r hr => hwmin r (hsp.mem_iff.mpr hr), hwfind⟩

/-- C3 witness: on the pool `[fitness 2, fitness 1]` sampled in order, the
winner is the fitness-`1` record, the global minimum. -/
theorem tournament_select_min_witness :
    ∃ w, select 2 [0, 1] [(⟨.fin 2, 0⟩ : CompareRecord Nat), ⟨.fin 1, 1⟩] = some w ∧
      w ∈ [(⟨.fin 2, 0⟩ : CompareRecord Nat), ⟨.fin 1, 1⟩] ∧
      (∀ r ∈ [(⟨.fin 2, 0⟩ : CompareRecord Nat), ⟨.fin 1, 1⟩],
        FVal.fle w.fitness r.fitness = true) ∧
      (tournamentIter 2 [0, 1] [(⟨.fin 2, 0⟩ : CompareRecord Nat), ⟨.fin 1, 1⟩]).reverse.find?
        (fun c => FVal.fle c.fitness w.fitness) = some w :=
  tournament_select_min 2 [0, 1] [⟨.fin 2, 0⟩, ⟨.fin 1, 1⟩] (by decide)
    (by
      intro r hr
      rcases List.mem_cons.mp hr with h | h
      · exact ⟨2, by rw [h]⟩
      · exact ⟨1, by rw [List.mem_singleton.mp h]⟩)
    (by decide) (by decide)

/-- Reduction of a successful `Except` bind. -/
theorem except_ok_bind {β γ : Type} (a : β) (f : β → Except FitnessError γ) :
    (Except.ok a >>= f) = f a := rfl

/-- Inversion of a successful `Except` bind. -/
theorem except_bind_ok {β γ : Type} (e : Except FitnessError β)
    (f : β → Except FitnessError γ) (v : γ) (h : (e >>= f) = .ok v) :
    ∃ a, e = .ok a ∧ f a = .ok v := by
  rcases e with err | a
  · exact Except.noConfusion h
  · exact ⟨a, rfl, h⟩

/-- A successful `convert` returns the exact count. -/
theorem convert_ok (n : Nat) (v : FVal) (h : convert n = .ok v) :
    v = .fin (n : ℚ) := by
  unfold convert at h
  by_cases hc : n < 2 ^ 53 ∨ 2 ^ (Nat.log2 n - 52) ∣ n
  · rw [if_pos hc] at h
    injection h with h
    exact h.symm
  · rw [if_neg hc] at h
    exact Except.noConfusion h

/-- `convert` succeeds on every count below `2^53`. -/
theorem convert_small (n : Nat) (h : n < 2 ^ 53) : convert n = .ok (.fin (n : ℚ)) := by
  unfold convert
  rw [if_pos (Or.inl h)]

/-- `checked_divide` on finite values with a non-zero denominator is the plain
quotient. -/
theorem checkedDivide_fin (a b : ℚ) (hb : b ≠ 0) :
    checkedDivide (.fin a) (.fin b) = .ok (.fin (a / b)) := by
  unfold checkedDivide FVal.div
  simp [hb, FVal.isNan, FVal.isInfinite]

/-- A successful `checked_divide` returns the IEEE quotient. -/
theorem checkedDivide_ok (n d v : FVal) (h : checkedDivide n d = .ok v) :
    v = FVal.div n d := by
  unfold checkedDivide at h
  by_cases h1 : (FVal.div n d).isNan
  · rw [if_pos h1] at h
    exact Except.noConfusion h
  · rw [if_neg h1] at h
    by_cases h2 : (FVal.div n d).isInfinite
    · rw [if_pos h2] at h
      exact Except.noConfusion h
    · rw [if_neg h2] at h
      injection h with h
      exact h.symm

/-- A fold of the checked sum from an error stays that error. -/
theorem foldl_exceptAddStep_error (l : List (Except FitnessError FVal))
    (e : FitnessError) : l.foldl exceptAddStep (.error e) = .error e := by
  induction l with
  | nil => rfl
  | cons x rest ih =>
    rw [List.foldl_cons, show exceptAddStep (.error e) x = .error e from rfl, ih]

/-- A successful checked sum means every summand succeeded and the result is
the plain fold of the values. -/
theorem foldl_exceptAddStep_ok :
    ∀ (l : List (Except FitnessError FVal)) (a s : FVal),
      l.foldl exceptAddStep (.ok a) = .ok s →
      ∃ vs : List FVal, l = vs.map Except.ok ∧ s = vs.foldl FVal.add a := by
  intro l
  induction l with
  | nil =>
    intro a s h
    injection h with h
    exact ⟨[], rfl, h.symm⟩
  | cons x rest ih =>
    intro a s h
    rw [List.foldl_cons] at h
    rcases x with e | v
    · rw [show exceptAddStep (.ok a) (.error e) = .error e from rfl,
        foldl_exceptAddStep_error] at h
      exact Except.noConfusion h
    · rw [show exceptAddStep (.ok a) (.ok v) = .ok (a.add v) from rfl] at h
      obtain ⟨vs, hvs, hsum⟩ := ih (a.add v) s h
      exact ⟨v :: vs, by rw [List.map_cons, hvs], by rw [List.foldl_cons, hsum]⟩

/-- Pointwise inversion of a map that produced only successes. -/
theorem map_ok_inv {β : Type} (g : β → Except FitnessError FVal) (h2 : β → FVal)
    (hpt : ∀ x v, g x = .ok v → v = h2 x) :
    ∀ (l : List β) (vs : List FVal), l.map g = vs.map Except.ok → vs = l.map h2 := by
  intro l
  induction l with
  | nil =>
    intro vs h
    cases vs with
    | nil => rfl
    | cons v vrest => simp at h
  | cons x xs ih =>
    intro vs h
    cases vs with
    | nil => simp at h
    | cons v vrest =>
      simp only [List.map_cons, List.cons.injEq] at h
      rw [List.map_cons, ← ih vrest h.2, hpt x v h.1]

/-- A successful per-record step of `check` computes exactly the per-record
mean of the squared errors. -/
theorem perRecord_ok (x : List FVal) (v : FVal)
    (h : (convert x.length >>= fun xLen => checkedDivide (fsum x) xLen) = .ok v) :
    v = specMean x := by
  obtain ⟨xLen, hxLen, hdiv⟩ := except_bind_ok _ _ _ h
  rw [checkedDivide_ok _ _ _ hdiv, convert_ok _ _ hxLen]
  rfl

/-- C4: whenever `Calc::check` succeeds, the returned fitness is exactly the
mean over the training records of the per-record mean of the squared
(expected - actual) errors. -/
theorem check_eq_specFitness (training : List TrainingRecord)
    (predictFn : List FVal → List FVal) (f : FVal)
    (h : check training predictFn = .ok f) :
    f = specFitness training predictFn := by
  unfold check at h
  obtain ⟨len, hlen, h⟩ := except_bind_ok _ _ _ h
  obtain ⟨mseSum, hsum, h⟩ := except_bind_ok _ _ _ h
  obtain ⟨vs, hvs, hs⟩ := foldl_exceptAddStep_ok _ _ _ hsum
  have hvseq : vs = (getMseIter training predictFn).map specMean :=
    map_ok_inv _ specMean (fun x v hx => perRecord_ok x v hx) _ vs hvs
  rw [checkedDivide_ok _ _ _ h, convert_ok _ _ hlen, hs, hvseq]
  simp only [specFitness, specMean, fsum, List.length_map, getMseIter,
    List.length_map]

/-- C4 witness: for the training record with input `[0,0]`, output `[0]` and
a predictor returning `[0]`, `check` succeeds with fitness exactly `0`, which
is the spec's mean of per-record means. -/
theorem check_eq_specFitness_witness :
    check [⟨[.fin 0, .fin 0], [.fin 0]⟩] (fun _ => [.fin 0]) = .ok (.fin 0) ∧
      FVal.fin 0 = specFitness [⟨[.fin 0, .fin 0], [.fin 0]⟩] (fun _ => [.fin 0]) := by
  have hc : check [⟨[.fin 0, .fin 0], [.fin 0]⟩] (fun _ => [.fin 0]) = .ok (.fin 0) := by
    unfold check
    rw [show ([(⟨[.fin 0, .fin 0], [.fin 0]⟩ : TrainingRecord)]).length = 1 from rfl,
      convert_small 1 (by norm_num)]
    norm_num [getMseIter, TrainingRecord.getMse, resultSum, exceptAddStep, fsum,
      FVal.sub, FVal.neg, FVal.add, FVal.mul, convert_small, checkedDivide_fin,
      except_ok_bind]
  exact ⟨hc, check_eq_specFitness [⟨[.fin 0, .fin 0], [.fin 0]⟩]
    (fun _ => [.fin 0]) (.fin 0) hc⟩

/-- Addition of two finite values is the rational sum. -/
theorem add_fin_fin (a b : ℚ) : FVal.add (.fin a) (.fin b) = .fin (a + b) := rfl

/-- A square is never negative, negatively infinite, or a negative zero. -/
theorem mul_self_isMseVal (x : FVal) : IsMseVal (FVal.mul x x) := by
  rcases x with q | s | _
  · exact Or.inr (Or.inr ⟨q * q, rfl, mul_self_nonneg q⟩)
  · refine Or.inr (Or.inl ?_)
    simp [FVal.mul]
  · exact Or.inl rfl

/-- The squared-error value set is closed under IEEE addition. -/
theorem add_isMseVal {a b : FVal} (ha : IsMseVal a) (hb : IsMseVal b) :
    IsMseVal (a.add b) := by
  rcases ha with ha | ha | ⟨qa, ha, hqa⟩ <;>
    rcases hb with hb | hb | ⟨qb, hb, hqb⟩ <;> subst ha <;> subst hb
  · exact Or.inl rfl
  · exact Or.inl rfl
  · exact Or.inl rfl
  · exact Or.inl rfl
  · exact Or.inr (Or.inl (by simp [FVal.add]))
  · exact Or.inr (Or.inl (by simp [FVal.add]))
  · exact Or.inl rfl
  · exact Or.inr (Or.inl (by simp [FVal.add]))
  · exact Or.inr (Or.inr ⟨qa + qb, rfl, add_nonneg hqa hqb⟩)

/-- A fold of IEEE addition over squared-error values stays in the set. -/
theorem foldl_add_isMseVal :
    ∀ (xs : List FVal) (acc : FVal), (∀ v ∈ xs, IsMseVal v) → IsMseVal acc →
      IsMseVal (xs.foldl FVal.add acc) := by
  intro xs
  induction xs with
  | nil => intro acc _ hacc; exact hacc
  | cons x rest ih =>
    intro acc h hacc
    rw [List.foldl_cons]
    exact ih _ (fun v hv => h v (List.mem_cons_of_mem _ hv))
      (add_isMseVal hacc (h x (List.mem_cons_self _ _)))

/-- Every element of a zipWith satisfies any property its combiner always
satisfies. -/
theorem zipWith_elem {β γ δ : Type} (f : β → γ → δ) (P : δ → Prop)
    (hf : ∀ a b, P (f a b)) :
    ∀ (l1 : List β) (l2 : List γ) (v : δ), v ∈ List.zipWith f l1 l2 → P v := by
  intro l1
  induction l1 with
  | nil =>
    intro l2 v hv
    simp at hv
  | cons x xs ih =>
    intro l2 v hv
    cases l2 with
    | nil => simp at hv
    | cons y ys =>
      rw [List.zipWith_cons_cons] at hv
      rcases List.mem_cons.mp hv with h | h
      · rw [h]
        exact hf x y
      · exact ih ys v h

/-- A checked division of a squared-error value by a count only succeeds with
a non-negative finite quotient. -/
theorem checkedDivide_count_ok (n : FVal) (k : Nat) (v : FVal)
    (hn : IsMseVal n) (h : checkedDivide n (.fin (k : ℚ)) = .ok v) :
    ∃ q, v = .fin q ∧ 0 ≤ q := by
  have hv := checkedDivide_ok _ _ _ h
  rcases hn with hn | hn | ⟨q, hn, hq⟩ <;> subst hn
  · exact absurd h (by unfold checkedDivide; simp [FVal.div, FVal.isNan])
  · exact absurd h
      (by unfold checkedDivide; simp [FVal.div, FVal.isNan, FVal.isInfinite])
  · by_cases hk : (k : ℚ) = 0
    · by_cases hq0 : q = 0
      · exact absurd h
          (by unfold checkedDivide; simp [FVal.div, hk, hq0, FVal.isNan])
      · exact absurd h
          (by unfold checkedDivide;
              simp [FVal.div, hk, hq0, FVal.isNan, FVal.isInfinite])
    · rw [hv]
      exact ⟨q / k, by simp [FVal.div, hk], div_nonneg hq (Nat.cast_nonneg k)⟩

/-- A successful per-record step over squared-error values yields a
non-negative finite mean. -/
theorem perRecord_nonneg (x : List FVal) (v : FVal)
    (hx : ∀ w ∈ x, IsMseVal w)
    (h : (convert x.length >>= fun xLen => checkedDivide (fsum x) xLen) = .ok v) :
    ∃ q, v = .fin q ∧ 0 ≤ q := by
  obtain ⟨xLen, hxLen, hdiv⟩ := except_bind_ok _ _ _ h
  rw [convert_ok _ _ hxLen] at hdiv
  exact checkedDivide_count_ok _ _ _
    (foldl_add_isMseVal x (.fin 0) hx (Or.inr (Or.inr ⟨0, rfl, le_refl 0⟩))) hdiv

/-- Pointwise property of the successes of a mapped computation. -/
theorem map_ok_forall {β : Type} (g : β → Except FitnessError FVal)
    (P : FVal → Prop) :
    ∀ (l : List β) (vs : List FVal), (∀ x ∈ l, ∀ v, g x = .ok v → P v) →
      l.map g = vs.map Except.ok → ∀ v ∈ vs, P v := by
  intro l
  induction l with
  | nil =>
    intro vs _ h v hv
    cases vs with
    | nil => simp at hv
    | cons w ws => simp at h
  | cons x xs ih =>
    intro vs hpt h v hv
    cases vs with
    | nil => simp at hv
    | cons w ws =>
      simp only [List.map_cons, List.cons.injEq] at h
      rcases List.mem_cons.mp hv with h1 | h1
      · rw [h1]
        exact hpt x (List.mem_cons_self _ _) w h.1
      · exact ih ws (fun y hy => hpt y (List.mem_cons_of_mem _ hy)) h.2 v h1

/-- A fold of IEEE addition over non-negative finite values from a
non-negative start is a non-negative finite value. -/
theorem foldl_add_fin_nonneg :
    ∀ (vs : List FVal) (a : ℚ), (∀ v ∈ vs, ∃ q, v = .fin q ∧ 0 ≤ q) → 0 ≤ a →
      ∃ s, vs.foldl FVal.add (.fin a) = .fin s ∧ 0 ≤ s := by
  intro vs
  induction vs with
  | nil =>
    intro a _ ha
    exact ⟨a, rfl, ha⟩
  | cons v rest ih =>
    intro a h ha
    obtain ⟨q, hq, hq0⟩ := h v (List.mem_cons_self _ _)
    rw [List.foldl_cons, hq, add_fin_fin]
    exact ih (a + q) (fun w hw => h w (List.mem_cons_of_mem _ hw)) (by linarith)

/-- C5: `Calc::check` never returns a sentinel: whenever it succeeds, the
fitness is a finite, non-NaN, non-negative value; every NaN/infinite
division result (including the zero-length denominators) was turned into a
classified error on the way. -/
theorem check_ok_nonneg (training : List TrainingRecord)
    (predictFn : List FVal → List FVal) (f : FVal)
    (h : check training predictFn = .ok f) :
    ∃ q, f = .fin q ∧ 0 ≤ q := by
  unfold check at h
  obtain ⟨len, hlen, h⟩ := except_bind_ok _ _ _ h
  obtain ⟨mseSum, hsum, h⟩ := except_bind_ok _ _ _ h
  rw [convert_ok _ _ hlen] at h
  obtain ⟨vs, hvs, hs⟩ := foldl_exceptAddStep_ok _ _ _ hsum
  have hvsn : ∀ v ∈ vs, ∃ q, v = .fin q ∧ 0 ≤ q := by
    refine map_ok_forall _ _ _ vs ?_ hvs
    intro x hxmem v hx
    refine perRecord_nonneg x v ?_ hx
    intro w hw
    obtain ⟨t, _, ht⟩ := List.mem_map.mp hxmem
    rw [← ht] at hw
    exact zipWith_elem _ IsMseVal (fun e a => mul_self_isMseVal (FVal.sub e a))
      _ _ w hw
  obtain ⟨s, hsv, hs0⟩ := foldl_add_fin_nonneg vs 0 hvsn (le_refl 0)
  rw [hs, hsv] at h
  exact checkedDivide_count_ok _ _ _ (Or.inr (Or.inr ⟨s, rfl, hs0⟩)) h

/-- C5 witness: for the record with input `[1]`, output `[2]` and a predictor
returning `[1]`, `check` succeeds with the non-negative finite fitness `1`. -/
theorem check_ok_nonneg_witness :
    check [⟨[.fin 1], [.fin 2]⟩] (fun _ => [.fin 1]) = .ok (.fin 1) ∧
      ∃ q, FVal.fin 1 = .fin q ∧ 0 ≤ q := by
  have hc : check [⟨[.fin 1], [.fin 2]⟩] (fun _ => [.fin 1]) = .ok (.fin 1) := by
    unfold check
    rw [show ([(⟨[.fin 1], [.fin 2]⟩ : TrainingRecord)]).length = 1 from rfl,
      convert_small 1 (by norm_num)]
    norm_num [getMseIter, TrainingRecord.getMse, resultSum, exceptAddStep, fsum,
      FVal.sub, FVal.neg, FVal.add, FVal.mul, convert_small, checkedDivide_fin,
      except_ok_bind]
  exact ⟨hc, check_ok_nonneg [⟨[.fin 1], [.fin 2]⟩] (fun _ => [.fin 1]) (.fin 1) hc⟩

/-- The breed loop exits exactly when the next generation has reached the
size of the ranked parent pool. -/
theorem newGenerationLoop_length {α : Type} (crossoverFn : α → α → α) (mutateFn : α → α)
    (chk : α → Except FitnessError FVal) (ts : Nat)
    (parent : List (CompareRecord α)) (perms : Nat → List Nat × List Nat) :
    ∀ (fuel step : Nat) (acc res : List (CompareRecord α)),
      acc.length ≤ parent.length →
      newGenerationLoop crossoverFn mutateFn chk ts parent perms fuel step acc =
        some res →
      res.length = parent.length := by
  intro fuel
  induction fuel with
  | zero =>
    intro step acc res hle h
    unfold newGenerationLoop at h
    by_cases hc : parent.length ≤ acc.length
    · rw [if_pos hc] at h
      injection h with h
      subst h
      omega
    · rw [if_neg hc] at h
      exact Option.noConfusion h
  | succ n ih =>
    intro step acc res hle h
    unfold newGenerationLoop at h
    by_cases hc : parent.length ≤ acc.length
    · rw [if_pos hc] at h
      injection h with h
      subst h
      omega
    · rw [if_neg hc] at h
      split at h
      · simp only [] at h
        split at h
        · exact ih (step + 1) _ res (by simp; omega) h
        · exact ih (step + 1) acc res hle h
      · exact ih (step + 1) acc res hle h

/-- When every genome evaluates successfully, ranking drops nothing. -/
theorem rankGeneration_length_all_ok {α : Type} (chk : α → Except FitnessError FVal) :
    ∀ (gen : List α), (∀ g ∈ gen, ∃ f, chk g = .ok f) →
      (rankGeneration chk gen).length = gen.length := by
  intro gen
  induction gen with
  | nil => intro _; rfl
  | cons x xs ih =>
    intro h
    obtain ⟨f, hf⟩ := h x (List.mem_cons_self _ _)
    have hx : (createCompareRecord chk x).toOption = some ⟨f, x⟩ := by
      simp only [createCompareRecord, hf]
      rfl
    have hxs := ih (fun g hg => h g (List.mem_cons_of_mem _ hg))
    simp only [rankGeneration, List.filterMap_cons, hx]
    simp only [rankGeneration] at hxs
    simp [hxs]

/-- A successful inject loop preserves the generation length. -/
theorem injectLoop_ok_length {α : Type} (sz : Nat) (seeds : Nat → Nat) :
    ∀ (elite : List α) (k : Nat) (cur out : List α),
      injectLoop sz seeds k cur elite = some out → out.length = cur.length := by
  intro elite
  induction elite with
  | nil =>
    intro k cur out h
    injection h with h
    rw [← h]
  | cons ge rest ih =>
    intro k cur out h
    unfold injectLoop at h
    rcases hg : genRangeNat sz (seeds k) with _ | i <;> rw [hg] at h
    · exact Option.noConfusion h
    · rw [ih (k + 1) _ _ h, List.length_set]

/-- C1 (amended): whenever `Run::run` returns, the output generation's size
equals the RANKED pool's size - the number of input genomes whose fitness
evaluation succeeded - and therefore equals the input size exactly when no
genome failed evaluation. -/
theorem run_length {α : Type} (crossoverFn : α → α → α) (mutateFn : α → α)
    (chk : α → Except FitnessError FVal) (elitism ts : Nat)
    (perms : Nat → List Nat × List Nat) (injSeeds : Nat → Nat) (fuel : Nat)
    (gen out : List α)
    (h : run crossoverFn mutateFn chk elitism ts perms injSeeds fuel gen = some out) :
    out.length = (rankGeneration chk gen).length ∧
    ((∀ g ∈ gen, ∃ f, chk g = .ok f) → out.length = gen.length) := by
  unfold run at h
  simp only [] at h
  rcases hng : newGenerationLoop crossoverFn mutateFn chk ts
      (rankGeneration chk gen) perms fuel 0 [] with _ | next <;> rw [hng] at h
  · exact Option.noConfusion h
  · have hnext : next.length = (rankGeneration chk gen).length :=
      newGenerationLoop_length crossoverFn mutateFn chk ts _ perms fuel 0 [] next
        (by simp) hng
    have hout : out.length = (unrankGeneration next).length :=
      injectLoop_ok_length _ _ _ _ _ _ h
    have hout2 : out.length = (rankGeneration chk gen).length := by
      rw [hout, unrankGeneration, List.length_map, hnext]
    exact ⟨hout2, fun hall => by rw [hout2, rankGeneration_length_all_ok chk gen hall]⟩

/-- C2 (amended): when every genome of the input generation fails fitness
evaluation, the ranked pool is empty, so the breed loop's target size is `0`
and it exits immediately: `run` terminates and returns the EMPTY generation
(the claimed non-termination does not occur). -/
theorem run_all_fail_returns_empty {α : Type} (crossoverFn : α → α → α)
    (mutateFn : α → α) (chk : α → Except FitnessError FVal) (elitism ts : Nat)
    (perms : Nat → List Nat × List Nat) (injSeeds : Nat → Nat) (fuel : Nat)
    (gen : List α) (hall : ∀ g ∈ gen, ∃ e, chk g = .error e) :
    run crossoverFn mutateFn chk elitism ts perms injSeeds fuel gen = some [] := by
  have hrank : rankGeneration chk gen = [] := by
    rw [rankGeneration, List.filterMap_eq_nil_iff]
    intro g hg
    obtain ⟨e, he⟩ := hall g hg
    simp only [createCompareRecord, he]
    rfl
  have hloop : newGenerationLoop crossoverFn mutateFn chk ts
      ([] : List (CompareRecord α)) perms fuel 0 [] = some [] := by
    cases fuel <;> simp [newGenerationLoop]
  unfold run
  simp only []
  rw [hrank, hloop]
  simp only [unrankGeneration, List.map_nil, partitionElite, sortGeneration,
    List.mergeSort_nil, List.take_nil]
  rfl

/-- The zero genome evaluates to fitness zero. -/
theorem chkConst_zero : chkConst (.fin 0) = .ok (.fin 0) := by
  unfold chkConst check
  rw [show ([(⟨[], [.fin 0]⟩ : TrainingRecord)]).length = 1 from rfl,
    convert_small 1 (by norm_num)]
  norm_num [getMseIter, TrainingRecord.getMse, resultSum, exceptAddStep, fsum,
    FVal.sub, FVal.neg, FVal.add, FVal.mul, convert_small, checkedDivide_fin,
    except_ok_bind]

/-- The NaN genome fails evaluation with `ResultNaN`. -/
theorem chkConst_nan : chkConst .nan = .error .resultNaN := rfl

/-- The infinite genome fails evaluation with `ResultInfinite`. -/
theorem chkConst_inf : chkConst (.inf true) = .error .resultInfinite := rfl

/-- Selecting from the singleton ranked pool yields its record. -/
theorem select_single :
    select 1 [0] [(⟨.fin 0, .fin 0⟩ : CompareRecord FVal)] =
      some ⟨.fin 0, .fin 0⟩ := rfl

/-- The breed loop over the singleton ranked pool terminates in one
iteration with one offspring. -/
theorem newGenerationLoop_single :
    newGenerationLoop (fun l _ => l) id chkConst 1
      [(⟨.fin 0, .fin 0⟩ : CompareRecord FVal)] (fun _ => ([0], [0])) 2 0 [] =
      some [⟨.fin 0, .fin 0⟩] := by
  show newGenerationLoop (fun l _ => l) id chkConst 1 _ _ (1 + 1) 0 [] = _
  rw [newGenerationLoop]
  simp only [List.length_cons, List.length_nil, Nat.le_refl, if_neg (by norm_num :
    ¬ ([(⟨.fin 0, .fin 0⟩ : CompareRecord FVal)]).length ≤ ([] : List (CompareRecord FVal)).length),
    select_single]
  simp only [breedManager, id, chkConst_zero]
  rw [newGenerationLoop]
  rfl

/-- Ranking the pair (zero genome, NaN genome) keeps only the zero genome. -/
theorem rankGeneration_pair :
    rankGeneration chkConst [.fin 0, .nan] = [⟨.fin 0, .fin 0⟩] := by
  simp only [rankGeneration, List.filterMap_cons, List.filterMap_nil,
    createCompareRecord, chkConst_zero, chkConst_nan]
  rfl

/-- Ranking the singleton zero genome keeps it. -/
theorem rankGeneration_single :
    rankGeneration chkConst [.fin 0] = [⟨.fin 0, .fin 0⟩] := by
  simp only [rankGeneration, List.filterMap_cons, List.filterMap_nil,
    createCompareRecord, chkConst_zero]
  rfl

/-- A full concrete run on the input `[0, NaN]`, of size 2: it returns a
generation of size 1 (the ranked-pool size). -/
theorem run_pair :
    run (fun l _ => l) id chkConst 1 1 (fun _ => ([0], [0])) (fun _ => 0) 2
      [FVal.fin 0, FVal.nan] = some [FVal.fin 0] := by
  unfold run
  simp only []
  rw [rankGeneration_pair, newGenerationLoop_single]
  simp only [unrankGeneration, List.map_cons, List.map_nil, partitionElite,
    sortGeneration, List.mergeSort_singleton]
  rfl

/-- C1 counterexample: a size-2 generation with one genome failing fitness
evaluation makes `run` return a generation of size 1, not 2: the breed
loop's target is the ranked-pool size, so drops shrink the output. -/
theorem run_size_counterexample :
    (run (fun l _ => l) id chkConst 1 1 (fun _ => ([0], [0])) (fun _ => 0) 2
      [FVal.fin 0, FVal.nan]).map List.length = some 1 ∧
    ([FVal.fin 0, FVal.nan] : List FVal).length = 2 := by
  rw [run_pair]
  exact ⟨rfl, rfl⟩

/-- A full concrete run on the all-successful singleton input `[0]`. -/
theorem run_single :
    run (fun l _ => l) id chkConst 1 1 (fun _ => ([0], [0])) (fun _ => 0) 2
      [FVal.fin 0] = some [FVal.fin 0] := by
  unfold run
  simp only []
  rw [rankGeneration_single, newGenerationLoop_single]
  simp only [unrankGeneration, List.map_cons, List.map_nil, partitionElite,
    sortGeneration, List.mergeSort_singleton]
  rfl

/-- C1 witness: the singleton all-successful run keeps size 1 = ranked size
= input size. -/
theorem run_length_witness :
    ([FVal.fin 0] : List FVal).length = (rankGeneration chkConst [FVal.fin 0]).length ∧
    ((∀ g ∈ ([FVal.fin 0] : List FVal), ∃ f, chkConst g = .ok f) →
      ([FVal.fin 0] : List FVal).length = ([FVal.fin 0] : List FVal).length) :=
  run_length (fun l _ => l) id chkConst 1 1 (fun _ => ([0], [0])) (fun _ => 0) 2
    [FVal.fin 0] [FVal.fin 0] run_single

/-- C2 counterexample: on the all-failing input `[NaN]` the breed loop's
target size is 0, so `run` terminates immediately and returns the empty
generation - it does NOT loop forever. -/
theorem run_all_fail_counterexample :
    run (fun l _ => l) id chkConst 1 1 (fun _ => ([0], [0])) (fun _ => 0) 2
      [FVal.nan] = some [] := by
  have hrank : rankGeneration chkConst [.nan] = [] := by
    simp only [rankGeneration, List.filterMap_cons, List.filterMap_nil,
      createCompareRecord, chkConst_nan]
    rfl
  unfold run
  simp only []
  rw [hrank]
  rw [show newGenerationLoop (fun l _ => l) id chkConst 1
      ([] : List (CompareRecord FVal)) (fun _ => ([0], [0])) 2 0 [] = some []
    from rfl]
  simp only [unrankGeneration, List.map_nil, partitionElite, sortGeneration,
    List.mergeSort_nil, List.take_nil]
  rfl

/-- C2 witness: an all-failing generation (one genome of infinite
prediction) makes `run` return the empty generation. -/
theorem run_all_fail_returns_empty_witness :
    run (fun l _ => l) id chkConst 1 1 (fun _ => ([0], [0])) (fun _ => 0) 2
      [FVal.inf true] = some [] :=
  run_all_fail_returns_empty (fun l _ => l) id chkConst 1 1 (fun _ => ([0], [0]))
    (fun _ => 0) 2 [FVal.inf true]
    (fun g hg => ⟨.resultInfinite, by
      have hgv : g = FVal.inf true := by simpa using hg
      rw [hgv]
      exact chkConst_inf⟩)
